import Mathlib

/- A shallow embedding of kdenlive's PreviewManager
   (src/timeline/managers/previewmanager.cpp).

   Modelling conventions:
   * machine integers become Int/Nat (the modelled quantities never overflow);
   * Qt containers become Lean lists;
   * a chunk's cache file name "i.ext" is identified with its chunk index i,
     file contents are abstract Nats;
   * the filesystem state touched by the manager (live chunk cache, undo
     archive tree) is an explicit state record, mutating Qt calls become
     state-passing functions;
   * signal emissions become explicit components of each function's result. -/

set_option autoImplicit false

namespace Preview

/- ------------------------------------------------------------------
   doCleanupOldPreviews (previewmanager.cpp lines 177-188)

   QStringList dirs = m_undoDir.entryList(QDir::Dirs | QDir::NoDotAndDotDot);
   qSort(dirs);
   while (dirs.count() > 5) { QString dir = dirs.takeFirst(); ... removeRecursively(); }

   qSort on a QStringList orders by QString::operator<, which compares
   strings lexicographically by code unit (for the ASCII digit names that
   occur here, identical to comparing Unicode code points).
   ------------------------------------------------------------------ -/

/-- Lexicographic strict comparison of character lists, mirroring
QString::operator< (code-unit lexicographic order; digit names are ASCII). -/
def charsLt : List Char → List Char → Bool
  | [], [] => false
  | [], _ :: _ => true
  | _ :: _, [] => false
  | a :: as, b :: bs => if a < b then true else if b < a then false else charsLt as bs

/-- QString::operator< on the underlying character data. -/
def stringLt (a b : String) : Bool := charsLt a.data b.data

/-- The non-strict order induced by stringLt, used by the sort. -/
def stringLe (a b : String) : Bool := !(stringLt b a)

/-- Insertion step of the ascending sort of directory-name strings. -/
def insertSortedStr (a : String) : List String → List String
  | [] => [a]
  | b :: l => if stringLe a b then a :: b :: l else b :: insertSortedStr a l

/-- qSort on a QStringList: ascending lexicographic sort of the names. -/
def sortStr : List String → List String
  | [] => []
  | a :: l => insertSortedStr a (sortStr l)

/-- PreviewManager::doCleanupOldPreviews: list the undo archive
subdirectory names, string-sort them ascending, and repeatedly delete the
first while more than 5 remain.  Returns the names of the retained
directories (in sorted order). -/
def doCleanupOldPreviews (dirs : List String) : List String :=
  let sorted := sortStr dirs
  sorted.drop (sorted.length - 5)

/- ------------------------------------------------------------------
   initialize / loadParams (previewmanager.cpp lines 49-100) and the
   destructor (lines 38-47).

   The environment record collects the values the code reads from the
   document and the outcomes of the filesystem calls it makes.
   ------------------------------------------------------------------ -/

/-- Environment of PreviewManager::initialize: document properties and
filesystem-call outcomes. -/
structure InitEnv where
  /-- document property "documentid" -/
  documentId : String
  /-- document property "cachedir" -/
  cachedirProp : String
  /-- QFile::exists(cacheDir) for that property value -/
  cachedirPropExists : Bool
  /-- dirName() of QDir(cachedirProp) -/
  cachedirPropDirName : String
  /-- whether mkdir(documentId) + cd(documentId) under CacheLocation succeeds -/
  mkdirCdOk : Bool
  /-- m_cacheDir.exists("undo") -/
  undoExists : Bool
  /-- m_cacheDir.mkdir("undo") succeeds -/
  undoMkdirOk : Bool
  /-- document property "previewextension" -/
  previewExtension : String
  /-- document property "previewparameters" -/
  previewParameters : String
  /-- property "previewextension" after selectPreviewProfile() -/
  selPreviewExtension : String
  /-- property "previewparameters" after selectPreviewProfile() -/
  selPreviewParameters : String

/-- The manager state that initialize establishes: the m_initialized flag
(consulted by the destructor), the boolean result returned to the caller,
and the loaded render parameters. -/
structure InitState where
  initialized : Bool
  ok : Bool
  extension : String
  params : List String
deriving DecidableEq

/-- QString::toLong with the Qt convention of returning 0 when the string
does not parse as an integer. -/
def qstringToLong (s : String) : Int := (s.toInt?).getD 0

/-- PreviewManager::loadParams: read extension and parameters, fall back to
selectPreviewProfile() when either is empty, fail if still empty, append
"an=1".  QString::split(" ") keeps empty fields, so the parameter list is
never the empty list and the isEmpty test on it is vacuous, exactly as in
the source. -/
def loadParams (e : InitEnv) : Option (String × List String) :=
  let ext0 := e.previewExtension
  let ps0 := e.previewParameters.splitOn " "
  let ext := if ps0.isEmpty || ext0.isEmpty then e.selPreviewExtension else ext0
  let ps := if ps0.isEmpty || ext0.isEmpty then e.selPreviewParameters.splitOn " " else ps0
  if ps.isEmpty || ext.isEmpty then none
  else some (ext, ps ++ ["an=1"])

/-- PreviewManager::initialize (named initializeManager here because of a Lean keyword clash).  Note that the source sets
m_initialized = true on line 52, before any of the validation checks, so
every early `return false` path still leaves the flag set. -/
def initializeManager (e : InitEnv) : InitState :=
  let failSt : InitState := { initialized := true, ok := false, extension := "", params := [] }
  if e.documentId.isEmpty || qstringToLong e.documentId == 0 then failSt
  else
    let useProp := !e.cachedirProp.isEmpty && e.cachedirPropExists
    let dirName := if useProp then e.cachedirPropDirName else e.documentId
    let cdOk := if useProp then true else e.mkdirCdOk
    if !cdOk then failSt
    else if dirName != e.documentId || (!e.undoExists && !e.undoMkdirOk) then failSt
    else
      match loadParams e with
      | none => failSt
      | some (ext, ps) => { initialized := true, ok := true, extension := ext, params := ps }

/-- PreviewManager::~PreviewManager: the teardown side effects
(abortRendering, undo-tree removeRecursively, conditional cache-dir
removal) run exactly when m_initialized is set. -/
def destructorRunsTeardown (s : InitState) : Bool := s.initialized

/- ------------------------------------------------------------------
   doPreviewRender (previewmanager.cpp lines 239-290)

   The live chunk cache is the list of chunk indices whose file exists.
   Each chunk's transcode attempt has an environment-chosen outcome:
   the subprocess fails to start (waitForStarted() == false), exits
   normally (the chunk file is written), or exits abnormally - either
   because abortRendering() killed it (m_abortPreview set) or because it
   crashed on its own.  Chunks already in the cache never spawn a process.
   ------------------------------------------------------------------ -/

/-- Outcome of the transcode subprocess launched for one chunk. -/
inductive ChunkOutcome where
  | startFail
  | success
  | crashAbort
  | crashError
deriving DecidableEq

/-- One emitted previewRender(chunkIndex, outputPath, progressPerMille)
signal.  The path argument is `some i` for m_cacheDir.absoluteFilePath of
chunk i's file and `none` for the empty QString(). -/
structure REvent where
  idx : Int
  path : Option Int
  progress : Int
deriving DecidableEq

/-- QFile::remove of chunk i's file from the live cache. -/
def removeFile (cache : List Int) (i : Int) : List Int :=
  cache.filter (fun j => j != i)

/-- The while-loop of PreviewManager::doPreviewRender, over an
already-sorted queue.  ct counts dequeued chunks; progress is
(double)ct/(ct+remaining)*1000 truncated, which for the values that occur
equals Nat floor division.  Returns the emitted previewRender events and
the final live cache.  A crash with the abort flag set emits
(0, empty, 1000); a crash without it emits (i, empty, -1); both delete the
partial output file and break out of the loop.  A subprocess that never
starts emits nothing and continues. -/
def renderLoop (o : Int → ChunkOutcome) : List Int → List Int → Nat → List REvent × List Int
  | [], cache, _ => ([], cache)
  | i :: rest, cache, ct0 =>
    let ct := ct0 + 1
    let progress : Int := if rest.isEmpty then 1000 else (((ct * 1000) / (ct + rest.length) : Nat) : Int)
    if i ∈ cache then
      let r := renderLoop o rest cache ct
      (⟨i, some i, progress⟩ :: r.1, r.2)
    else
      match o i with
      | .startFail => renderLoop o rest cache ct
      | .success =>
        let r := renderLoop o rest (i :: cache) ct
        (⟨i, some i, progress⟩ :: r.1, r.2)
      | .crashAbort => ([⟨0, none, 1000⟩], removeFile cache i)
      | .crashError => ([⟨i, none, -1⟩], removeFile cache i)

/-- PreviewManager::doPreviewRender: emit the initial (0, empty, 0)
progress event, qSort the queue ascending, then run the render loop.
(The scratch scene file removed at the end lives outside the chunk cache
and is not part of the modelled state.) -/
def doPreviewRender (o : Int → ChunkOutcome) (cache : List Int) (chunks : List Int) :
    List REvent × List Int :=
  let r := renderLoop o (List.insertionSort (· ≤ ·) chunks) cache 0
  (⟨0, none, 0⟩ :: r.1, r.2)

/-- Measurement of the render loop: the chunks dequeued before the loop
ends, in dequeue order (the loop breaks after a crash). -/
def processedOf (o : Int → ChunkOutcome) : List Int → List Int → List Int
  | _, [] => []
  | cache, i :: rest =>
    if i ∈ cache then i :: processedOf o cache rest
    else
      match o i with
      | .startFail => i :: processedOf o cache rest
      | .success => i :: processedOf o (i :: cache) rest
      | .crashAbort => [i]
      | .crashError => [i]

/-- Measurement of the render loop: whether the run ends in a render
failure (abnormal exit without the abort flag). -/
def endsInFailure (o : Int → ChunkOutcome) : List Int → List Int → Bool
  | _, [] => false
  | cache, i :: rest =>
    if i ∈ cache then endsInFailure o cache rest
    else
      match o i with
      | .startFail => endsInFailure o cache rest
      | .success => endsInFailure o (i :: cache) rest
      | .crashAbort => false
      | .crashError => true

/- ------------------------------------------------------------------
   invalidatePreviews (previewmanager.cpp lines 102-175),
   slotProcessDirtyChunks (lines 292-299).

   State: the live cache maps a chunk index to the content of its file
   (none = absent); the undo archive maps a stack index to the contents of
   directory undo/<index> (none = directory absent, assoc list of
   (chunk, content) otherwise).
   ------------------------------------------------------------------ -/

/-- Filesystem state seen by the invalidation protocol. -/
structure PMCache where
  live : Int → Option Nat
  undo : Int → Option (List (Int × Nat))

/-- m_undoDir.mkdir(ix): creates an empty directory when absent. -/
def mkdirUndo (st : PMCache) (ix : Int) : PMCache :=
  match st.undo ix with
  | some _ => st
  | none => { st with undo := fun j => if j = ix then some [] else st.undo j }

/-- m_undoDir.rmdir(ix): removes the directory only when it is empty. -/
def rmdirUndo (st : PMCache) (ix : Int) : PMCache :=
  match st.undo ix with
  | some [] => { st with undo := fun j => if j = ix then none else st.undo j }
  | _ => st

/-- m_cacheDir.rename(i.ext, undo/ix/i.ext): moves the live file of chunk
i into archive directory ix; fails when the source file or the destination
directory is missing, or the destination file already exists. -/
def cacheRename (st : PMCache) (i : Int) (ix : Int) : PMCache × Bool :=
  match st.live i with
  | none => (st, false)
  | some c =>
    match st.undo ix with
    | none => (st, false)
    | some d =>
      if (d.lookup i).isSome then (st, false)
      else
        ({ live := fun j => if j = i then none else st.live j,
           undo := fun j => if j = ix then some ((i, c) :: d) else st.undo j }, true)

/-- The archiving foreach-loop of invalidatePreviews: rename each chunk's
live file into undo/ix/, recording whether any rename succeeded
(foundPreviews). -/
def archiveChunks (ix : Int) : PMCache → List Int → PMCache × Bool
  | st, [] => (st, false)
  | st, i :: rest =>
    let r1 := cacheRename st i ix
    let r2 := archiveChunks ix r1.1 rest
    (r2.1, r1.2 || r2.2)

/-- QFile::copy(undo/ix/i.ext, i.ext): copies chunk i's archived file back
into the live cache; fails when the source is missing or the destination
exists. -/
def fileCopy (st : PMCache) (d : List (Int × Nat)) (i : Int) : PMCache × Bool :=
  match d.lookup i with
  | none => (st, false)
  | some c =>
    if (st.live i).isSome then (st, false)
    else ({ st with live := fun j => if j = i then some c else st.live j }, true)

/-- The restore foreach-loop of invalidatePreviews: for each chunk, unless
lastUndo holds delete its live file, then (when the archive directory for
stackIx could be entered) copy the archived file back, collecting the
chunks whose copy succeeded. -/
def restoreChunks (stackIx : Int) (lastUndo moveFile : Bool) :
    PMCache → List Int → PMCache × List Int
  | st, [] => (st, [])
  | st, i :: rest =>
    let st1 := if lastUndo then st
      else { st with live := fun j => if j = i then none else st.live j }
    let r2 :=
      if moveFile then
        match st1.undo stackIx with
        | none => (st1, false)
        | some d => fileCopy st1 d i
      else (st1, false)
    let r3 := restoreChunks stackIx lastUndo moveFile r2.1 rest
    (r3.1, if r2.2 then i :: r3.2 else r3.2)

/-- Result of one invalidatePreviews run: the new filesystem state,
whether the cleanupOldPreviews signal was emitted, and the sorted chunk
list of the reloadChunks signal when that branch was taken. -/
structure InvalidateResult where
  state : PMCache
  cleanupEmitted : Bool
  reload : Option (List Int)

/-- PreviewManager::invalidatePreviews.  Top-of-history branch
(stackIx == stackMax and no archive for stackIx-1): mkdir undo/(stackIx-1),
move the dirty chunks' live files there, remove the directory again when
nothing moved, emit cleanupOldPreviews when something moved.  Otherwise:
when exactly one step below the top and no archive for stackMax exists,
first archive the current files at stackMax (the lastUndo case); then run
the restore loop against undo/stackIx and emit reloadChunks with the
sorted list of restored chunks. -/
def invalidatePreviews (stackIx stackMax : Int) (chunks : List Int) (st : PMCache) :
    InvalidateResult :=
  if stackIx = stackMax ∧ (st.undo (stackIx - 1)).isNone then
    let ix := stackIx - 1
    let st1 := mkdirUndo st ix
    let r := archiveChunks ix st1 chunks
    if r.2 then ⟨r.1, true, none⟩
    else ⟨rmdirUndo r.1 ix, false, none⟩
  else
    let stA :=
      if stackIx = stackMax - 1 ∧ (st.undo stackMax).isNone then
        let s1 := mkdirUndo st stackMax
        let r := archiveChunks stackMax s1 chunks
        ((if r.2 then r.1 else rmdirUndo r.1 stackMax), true)
      else (st, false)
    let lastUndo := stA.2
    let moveFile := (stA.1.undo stackIx).isSome
    let r := restoreChunks stackIx lastUndo moveFile stA.1 chunks
    ⟨r.1, false, some (List.insertionSort (· ≤ ·) r.2)⟩

/-- PreviewManager::slotProcessDirtyChunks: fetch the dirty chunks, run
invalidatePreviews, then unconditionally read chunks.first() and
chunks.last() for updatePreviewDisplay.  QList::first()/last() on an empty
list are undefined, modelled as the none result. -/
def slotProcessDirtyChunks (stackIx stackMax : Int) (st : PMCache) (chunks : List Int) :
    Option (InvalidateResult × Int × Int) :=
  let r := invalidatePreviews stackIx stackMax chunks st
  match chunks.head?, chunks.getLast? with
  | some f, some l => some (r, f, l)
  | _, _ => none

/- ------------------------------------------------------------------
   Theorems for the claims.
   ------------------------------------------------------------------ -/

/-- C1: doCleanupOldPreviews sorts the numeric directory names as
strings, so once names cross a digit-count boundary the retained
directories are not the 5 highest numeric indices: with archive
directories 6..11 the code deletes "10" (the string-smallest name) and
retains {6,7,8,9,11}, while the claim requires deleting "6" and retaining
{7,8,9,10,11}.  On single-digit names such as 1..7 (the spec's own
scenario) the two orders coincide. -/
theorem C1_string_sorted_pruning_eval :
    doCleanupOldPreviews ["6", "7", "8", "9", "10", "11"] = ["11", "6", "7", "8", "9"] ∧
    "10" ∉ doCleanupOldPreviews ["6", "7", "8", "9", "10", "11"] ∧
    "6" ∈ doCleanupOldPreviews ["6", "7", "8", "9", "10", "11"] ∧
    doCleanupOldPreviews ["1", "2", "3", "4", "5", "6", "7"] = ["3", "4", "5", "6", "7"] := by
  refine ⟨by decide, by decide, by decide, by decide⟩

/-- C2: initialize sets m_initialized = true before validating anything
(previewmanager.cpp line 52), so on the missing-document-id failure path it
returns false yet leaves the manager marked initialized, and the destructor
of such a manager does run the teardown side effects (abortRendering,
undo-tree deletion, conditional cache-dir deletion), contrary to the
claim. -/
theorem C2_failed_initialize_still_marked_initialized :
    (initializeManager
      { documentId := ""
        cachedirProp := ""
        cachedirPropExists := false
        cachedirPropDirName := ""
        mkdirCdOk := true
        undoExists := true
        undoMkdirOk := true
        previewExtension := "mp4"
        previewParameters := "p"
        selPreviewExtension := "mp4"
        selPreviewParameters := "p" }).ok = false ∧
    destructorRunsTeardown (initializeManager
      { documentId := ""
        cachedirProp := ""
        cachedirPropExists := false
        cachedirPropDirName := ""
        mkdirCdOk := true
        undoExists := true
        undoMkdirOk := true
        previewExtension := "mp4"
        previewParameters := "p"
        selPreviewExtension := "mp4"
        selPreviewParameters := "p" }) = true := by
  exact ⟨rfl, rfl⟩

/-- C7: in the scenario stackIx=3, stackMax=5, dirty chunks {0,25}, live
files for 0 and 25, archive directory undo/3 holding only chunk 0's file
(content 30): the else-branch runs with lastUndo false, reloadChunks is
emitted with exactly [0], chunk 0's archived file is copied back into the
live cache, and chunk 25's live file is deleted. -/
theorem C7_undo_restore_scenario :
    (invalidatePreviews 3 5 [0, 25]
      { live := fun j => if j = 0 then some 10 else if j = 25 then some 20 else none
        undo := fun j => if j = 3 then some [(0, 30)] else none }).reload = some [0] ∧
    (invalidatePreviews 3 5 [0, 25]
      { live := fun j => if j = 0 then some 10 else if j = 25 then some 20 else none
        undo := fun j => if j = 3 then some [(0, 30)] else none }).state.live 0 = some 30 ∧
    (invalidatePreviews 3 5 [0, 25]
      { live := fun j => if j = 0 then some 10 else if j = 25 then some 20 else none
        undo := fun j => if j = 3 then some [(0, 30)] else none }).state.live 25 = none ∧
    (invalidatePreviews 3 5 [0, 25]
      { live := fun j => if j = 0 then some 10 else if j = 25 then some 20 else none
        undo := fun j => if j = 3 then some [(0, 30)] else none }).cleanupEmitted = false := by
  exact ⟨rfl, rfl, rfl, rfl⟩

/-- Helper: the processed-chunk list of a non-empty queue is non-empty. -/
theorem processedOf_cons_ne_nil (o : Int → ChunkOutcome) (cache : List Int) (i : Int)
    (rest : List Int) : processedOf o cache (i :: rest) ≠ [] := by
  simp only [processedOf]
  split
  · simp
  · split <;> simp

/-- Helper: getLast? ignores a cons onto a non-empty list. -/
theorem getLast?_cons_ne_nil {α : Type} (a : α) {l : List α} (h : l ≠ []) :
    (a :: l).getLast? = l.getLast? := by
  cases l with
  | nil => exact absurd rfl h
  | cons b m => simp

/-- Helper: when every subprocess in the queue starts, the render loop
emits one event per dequeued chunk and its last event reports -1 after a
render failure and 1000 otherwise. -/
theorem renderLoop_noStartFail (o : Int → ChunkOutcome) :
    ∀ (l cache : List Int) (ct : Nat), l ≠ [] →
    (∀ i ∈ l, o i ≠ ChunkOutcome.startFail) →
    (renderLoop o l cache ct).1.length = (processedOf o cache l).length ∧
    (renderLoop o l cache ct).1.getLast?.map REvent.progress
      = some (if endsInFailure o cache l then -1 else 1000) := by
  intro l
  induction l with
  | nil => intro cache ct h; exact absurd rfl h
  | cons i rest ih =>
    intro cache ct _ hsf
    have hsf' : ∀ j ∈ rest, o j ≠ ChunkOutcome.startFail :=
      fun j hj => hsf j (List.mem_cons_of_mem i hj)
    by_cases hrest : rest = []
    · subst hrest
      by_cases hc : i ∈ cache
      · simp [renderLoop, processedOf, endsInFailure, hc]
      · cases ho : o i with
        | startFail => exact absurd ho (hsf i (List.mem_cons_self i []))
        | success => simp [renderLoop, processedOf, endsInFailure, hc, ho]
        | crashAbort => simp [renderLoop, processedOf, endsInFailure, hc, ho]
        | crashError => simp [renderLoop, processedOf, endsInFailure, hc, ho]
    · have hpne : processedOf o cache rest ≠ [] ∧ ∀ c : List Int, processedOf o c rest ≠ [] := by
        cases hrc : rest with
        | nil => exact absurd hrc hrest
        | cons b m => exact ⟨processedOf_cons_ne_nil o cache b m,
            fun c => processedOf_cons_ne_nil o c b m⟩
      by_cases hc : i ∈ cache
      · have hr := ih cache (ct + 1) hrest hsf'
        have hne : (renderLoop o rest cache (ct + 1)).1 ≠ [] := by
          intro hnil
          have h1 := hr.1
          rw [hnil] at h1
          exact hpne.2 cache (List.length_eq_zero.mp h1.symm)
        simp only [renderLoop, if_pos hc, processedOf, endsInFailure]
        refine ⟨by simp [hr.1], ?_⟩
        rw [getLast?_cons_ne_nil _ hne]
        exact hr.2
      · cases ho : o i with
        | startFail => exact absurd ho (hsf i (List.mem_cons_self i rest))
        | success =>
          have hr := ih (i :: cache) (ct + 1) hrest hsf'
          have hne : (renderLoop o rest (i :: cache) (ct + 1)).1 ≠ [] := by
            intro hnil
            have h1 := hr.1
            rw [hnil] at h1
            exact hpne.2 (i :: cache) (List.length_eq_zero.mp h1.symm)
          simp only [renderLoop, if_neg hc, ho, processedOf, endsInFailure]
          refine ⟨by simp [hr.1], ?_⟩
          rw [getLast?_cons_ne_nil _ hne]
          exact hr.2
        | crashAbort =>
          simp [renderLoop, processedOf, endsInFailure, hc, ho]
        | crashError =>
          simp [renderLoop, processedOf, endsInFailure, hc, ho]

/-- C3 counterexample: queue [0, 25] where chunk 0's subprocess fails to
start and chunk 25's crashes.  Both chunks are dequeued and processed, yet
besides the initial (0, empty, 0) event only one event is emitted - chunk
0 gets none - and the event for the final processed chunk carries -1, not
1000.  The claim as stated is false on this input. -/
theorem C3_progress_events_counterexample :
    (doPreviewRender
        (fun i => if i = 0 then ChunkOutcome.startFail else ChunkOutcome.crashError)
        [] [0, 25]).1
      = [⟨0, none, 0⟩, ⟨25, none, -1⟩] ∧
    processedOf (fun i => if i = 0 then ChunkOutcome.startFail else ChunkOutcome.crashError)
        [] (List.insertionSort (· ≤ ·) [0, 25])
      = [0, 25] := by
  exact ⟨rfl, rfl⟩

/-- C3 (amended): for every non-empty queue all of whose launched
subprocesses start, exactly one previewRender event is emitted per chunk
processed (plus the initial progress-0 event), and the event for the final
chunk processed carries progressPerMille 1000, except when that chunk's
subprocess exited abnormally without an abort, in which case it carries
-1. -/
theorem C3_progress_events (o : Int → ChunkOutcome) (cache chunks : List Int)
    (hne : chunks ≠ []) (hsf : ∀ i ∈ chunks, o i ≠ ChunkOutcome.startFail) :
    (doPreviewRender o cache chunks).1.length
      = 1 + (processedOf o cache (List.insertionSort (· ≤ ·) chunks)).length ∧
    (doPreviewRender o cache chunks).1.getLast?.map REvent.progress
      = some (if endsInFailure o cache (List.insertionSort (· ≤ ·) chunks) then -1
              else 1000) := by
  have hperm := List.perm_insertionSort (· ≤ ·) chunks
  have hsne : List.insertionSort (· ≤ ·) chunks ≠ [] := by
    intro h
    exact hne (List.Perm.eq_nil (h ▸ hperm).symm)
  have hsf' : ∀ i ∈ List.insertionSort (· ≤ ·) chunks, o i ≠ ChunkOutcome.startFail :=
    fun i hi => hsf i (hperm.subset hi)
  obtain ⟨h1, h2⟩ := renderLoop_noStartFail o (List.insertionSort (· ≤ ·) chunks) cache 0
    hsne hsf'
  have hlne : (renderLoop o (List.insertionSort (· ≤ ·) chunks) cache 0).1 ≠ [] := by
    intro hnil
    rw [hnil] at h1
    cases hs : List.insertionSort (· ≤ ·) chunks with
    | nil => exact hsne hs
    | cons b m =>
      rw [hs] at h1
      exact processedOf_cons_ne_nil o cache b m (List.length_eq_zero.mp h1.symm)
  constructor
  · simp only [doPreviewRender, List.length_cons, h1]
    omega
  · simp only [doPreviewRender]
    rw [getLast?_cons_ne_nil _ hlne]
    exact h2

/-- C3 witness: the amended theorem applied to a one-chunk all-success
run. -/
theorem C3_progress_events_witness :
    (([0] : List Int) ≠ []) ∧
    ((doPreviewRender (fun _ => ChunkOutcome.success) [] [0]).1.length
        = 1 + (processedOf (fun _ => ChunkOutcome.success) []
            (List.insertionSort (· ≤ ·) [0])).length ∧
      (doPreviewRender (fun _ => ChunkOutcome.success) [] [0]).1.getLast?.map REvent.progress
        = some (if endsInFailure (fun _ => ChunkOutcome.success) []
              (List.insertionSort (· ≤ ·) [0]) then -1 else 1000)) :=
  ⟨by decide, C3_progress_events (fun _ => ChunkOutcome.success) [] [0] (by decide)
    (by intro i _; simp)⟩

/-- Helper: when the loop reaches chunk i after a prefix of successful
chunks and i's subprocess exits abnormally, the loop emits exactly one
event per dequeued chunk, ends with the crash event, removes i's partial
file, keeps every file of the prefix and every other pre-existing file,
and processes nothing further. -/
theorem renderLoop_crash_after_successes (o : Int → ChunkOutcome) (i : Int) (ev : REvent)
    (hcrash : o i = ChunkOutcome.crashAbort ∧ ev = ⟨0, none, 1000⟩ ∨
      o i = ChunkOutcome.crashError ∧ ev = ⟨i, none, -1⟩) :
    ∀ (pre cache rest : List Int) (ct : Nat),
    (∀ j ∈ pre, o j = ChunkOutcome.success) → i ∉ cache → i ∉ pre →
    (renderLoop o (pre ++ i :: rest) cache ct).1.length = pre.length + 1 ∧
    (renderLoop o (pre ++ i :: rest) cache ct).1.getLast? = some ev ∧
    i ∉ (renderLoop o (pre ++ i :: rest) cache ct).2 ∧
    (∀ x ∈ cache, x ≠ i → x ∈ (renderLoop o (pre ++ i :: rest) cache ct).2) ∧
    (∀ j ∈ pre, j ∈ (renderLoop o (pre ++ i :: rest) cache ct).2) := by
  intro pre
  induction pre with
  | nil =>
    intro cache rest ct _ hic _
    have hmem : ∀ x, x ∈ removeFile cache i ↔ x ∈ cache ∧ x ≠ i := by
      intro x
      simp [removeFile, List.mem_filter]
    rcases hcrash with ⟨ho, hev⟩ | ⟨ho, hev⟩ <;>
      subst hev <;>
      simp only [List.nil_append, renderLoop, if_neg hic, ho] <;>
      exact ⟨rfl, rfl, fun hmi => ((hmem i).mp hmi).2 rfl,
        fun x hx hxi => (hmem x).mpr ⟨hx, hxi⟩, by simp⟩
  | cons j pre' ih =>
    intro cache rest ct hpre hic hip
    have hji : j ≠ i := fun h => hip (h ▸ List.mem_cons_self j pre')
    have hip' : i ∉ pre' := fun h => hip (List.mem_cons_of_mem j h)
    have hpre' : ∀ k ∈ pre', o k = ChunkOutcome.success :=
      fun k hk => hpre k (List.mem_cons_of_mem j hk)
    have hoj : o j = ChunkOutcome.success := hpre j (List.mem_cons_self j pre')
    by_cases hc : j ∈ cache
    · obtain ⟨h1, h2, h3, h4, h5⟩ := ih cache rest (ct + 1) hpre' hic hip'
      have hne : (renderLoop o (pre' ++ i :: rest) cache (ct + 1)).1 ≠ [] := by
        intro hnil
        rw [hnil] at h1
        simp at h1
      simp only [List.cons_append, renderLoop, List.append_eq, if_pos hc]
      refine ⟨by simp [h1], ?_, h3, h4, ?_⟩
      · rw [getLast?_cons_ne_nil _ hne]
        exact h2
      · intro k hk
        rcases List.mem_cons.mp hk with hkj | hk'
        · exact hkj ▸ h4 j hc hji
        · exact h5 k hk'
    · obtain ⟨h1, h2, h3, h4, h5⟩ := ih (j :: cache) rest (ct + 1) hpre'
        (fun h => (List.mem_cons.mp h).elim (fun he => hji he.symm) hic) hip'
      have hne : (renderLoop o (pre' ++ i :: rest) (j :: cache) (ct + 1)).1 ≠ [] := by
        intro hnil
        rw [hnil] at h1
        simp at h1
      simp only [List.cons_append, renderLoop, List.append_eq, if_neg hc, hoj]
      refine ⟨by simp [h1], ?_, h3, ?_, ?_⟩
      · rw [getLast?_cons_ne_nil _ hne]
        exact h2
      · intro x hx hxi
        exact h4 x (List.mem_cons_of_mem j hx) hxi
      · intro k hk
        rcases List.mem_cons.mp hk with hkj | hk'
        · exact hkj ▸ h4 j (List.mem_cons_self j cache) hji
        · exact h5 k hk'

/-- C4: when chunk i's subprocess exits abnormally without an abort, after
a prefix of successfully rendered chunks, the runner emits the (i, empty,
-1) failure event for i as its last event, deletes i's partial output
file, emits exactly one event per chunk dequeued before the break (so the
remaining queue is not processed), and every chunk rendered earlier in the
batch, as well as every other pre-existing cache file, stays in the
cache. -/
theorem C4_render_failure_policy (o : Int → ChunkOutcome) (cache pre rest : List Int)
    (i : Int) (ct : Nat) (hpre : ∀ j ∈ pre, o j = ChunkOutcome.success)
    (hic : i ∉ cache) (hip : i ∉ pre) (hoi : o i = ChunkOutcome.crashError) :
    (renderLoop o (pre ++ i :: rest) cache ct).1.length = pre.length + 1 ∧
    (renderLoop o (pre ++ i :: rest) cache ct).1.getLast? = some ⟨i, none, -1⟩ ∧
    i ∉ (renderLoop o (pre ++ i :: rest) cache ct).2 ∧
    (∀ x ∈ cache, x ≠ i → x ∈ (renderLoop o (pre ++ i :: rest) cache ct).2) ∧
    (∀ j ∈ pre, j ∈ (renderLoop o (pre ++ i :: rest) cache ct).2) :=
  renderLoop_crash_after_successes o i ⟨i, none, -1⟩ (Or.inr ⟨hoi, rfl⟩)
    pre cache rest ct hpre hic hip

/-- C4 witness: chunks 0 and 25 render, chunk 50 crashes, chunk 75 is
never processed. -/
theorem C4_render_failure_policy_witness :
    ((∀ j ∈ ([0, 25] : List Int),
        (fun k => if k = 50 then ChunkOutcome.crashError else ChunkOutcome.success) j
          = ChunkOutcome.success) ∧
      (50 : Int) ∉ ([] : List Int) ∧ (50 : Int) ∉ ([0, 25] : List Int)) ∧
    (renderLoop (fun k => if k = 50 then ChunkOutcome.crashError else ChunkOutcome.success)
        ([0, 25] ++ 50 :: [75]) [] 0).1.length = ([0, 25] : List Int).length + 1 ∧
    (renderLoop (fun k => if k = 50 then ChunkOutcome.crashError else ChunkOutcome.success)
        ([0, 25] ++ 50 :: [75]) [] 0).1.getLast? = some ⟨50, none, -1⟩ ∧
    (50 : Int) ∉ (renderLoop
        (fun k => if k = 50 then ChunkOutcome.crashError else ChunkOutcome.success)
        ([0, 25] ++ 50 :: [75]) [] 0).2 ∧
    (∀ x ∈ ([] : List Int), x ≠ (50 : Int) → x ∈ (renderLoop
        (fun k => if k = 50 then ChunkOutcome.crashError else ChunkOutcome.success)
        ([0, 25] ++ 50 :: [75]) [] 0).2) ∧
    (∀ j ∈ ([0, 25] : List Int), j ∈ (renderLoop
        (fun k => if k = 50 then ChunkOutcome.crashError else ChunkOutcome.success)
        ([0, 25] ++ 50 :: [75]) [] 0).2) :=
  ⟨⟨by decide, by decide, by decide⟩,
    C4_render_failure_policy _ [] [0, 25] [75] 50 0 (by decide) (by decide) (by decide) rfl⟩

/-- C5: when chunk i's subprocess is killed by an abort after a prefix of
successful chunks, the runner's last event is (0, empty, 1000), it emits
exactly one event per chunk dequeued before the break (so no further
chunks are processed), and no partial file for i remains in the cache. -/
theorem C5_abort_policy (o : Int → ChunkOutcome) (cache pre rest : List Int)
    (i : Int) (ct : Nat) (hpre : ∀ j ∈ pre, o j = ChunkOutcome.success)
    (hic : i ∉ cache) (hip : i ∉ pre) (hoi : o i = ChunkOutcome.crashAbort) :
    (renderLoop o (pre ++ i :: rest) cache ct).1.length = pre.length + 1 ∧
    (renderLoop o (pre ++ i :: rest) cache ct).1.getLast? = some ⟨0, none, 1000⟩ ∧
    i ∉ (renderLoop o (pre ++ i :: rest) cache ct).2 ∧
    (∀ x ∈ cache, x ≠ i → x ∈ (renderLoop o (pre ++ i :: rest) cache ct).2) ∧
    (∀ j ∈ pre, j ∈ (renderLoop o (pre ++ i :: rest) cache ct).2) :=
  renderLoop_crash_after_successes o i ⟨0, none, 1000⟩ (Or.inl ⟨hoi, rfl⟩)
    pre cache rest ct hpre hic hip

/-- C5 witness: chunk 0 renders, the render of chunk 25 is aborted,
chunk 50 is never processed. -/
theorem C5_abort_policy_witness :
    ((∀ j ∈ ([0] : List Int),
        (fun k => if k = 25 then ChunkOutcome.crashAbort else ChunkOutcome.success) j
          = ChunkOutcome.success) ∧
      (25 : Int) ∉ ([] : List Int) ∧ (25 : Int) ∉ ([0] : List Int)) ∧
    (renderLoop (fun k => if k = 25 then ChunkOutcome.crashAbort else ChunkOutcome.success)
        ([0] ++ 25 :: [50]) [] 0).1.length = ([0] : List Int).length + 1 ∧
    (renderLoop (fun k => if k = 25 then ChunkOutcome.crashAbort else ChunkOutcome.success)
        ([0] ++ 25 :: [50]) [] 0).1.getLast? = some ⟨0, none, 1000⟩ ∧
    (25 : Int) ∉ (renderLoop
        (fun k => if k = 25 then ChunkOutcome.crashAbort else ChunkOutcome.success)
        ([0] ++ 25 :: [50]) [] 0).2 ∧
    (∀ x ∈ ([] : List Int), x ≠ (25 : Int) → x ∈ (renderLoop
        (fun k => if k = 25 then ChunkOutcome.crashAbort else ChunkOutcome.success)
        ([0] ++ 25 :: [50]) [] 0).2) ∧
    (∀ j ∈ ([0] : List Int), j ∈ (renderLoop
        (fun k => if k = 25 then ChunkOutcome.crashAbort else ChunkOutcome.success)
        ([0] ++ 25 :: [50]) [] 0).2) :=
  ⟨⟨by decide, by decide, by decide⟩,
    C5_abort_policy _ [] [0] [50] 25 0 (by decide) (by decide) (by decide) rfl⟩

/-- Helper: the chunks the loop dequeues form a sublist of its queue. -/
theorem processedOf_sublist (o : Int → ChunkOutcome) :
    ∀ (l cache : List Int), List.Sublist (processedOf o cache l) l := by
  intro l
  induction l with
  | nil => intro cache; simp [processedOf]
  | cons i rest ih =>
    intro cache
    simp only [processedOf]
    split
    · exact List.Sublist.cons₂ i (ih cache)
    · split
      · exact List.Sublist.cons₂ i (ih cache)
      · exact List.Sublist.cons₂ i (ih _)
      · exact List.Sublist.cons₂ i (List.nil_sublist rest)
      · exact List.Sublist.cons₂ i (List.nil_sublist rest)

/-- C8: the runner dequeues chunks in ascending start-frame order (the
sorted queue is consumed front to back, so the processed chunks are always
sorted ascending); in the concrete scenario chunkSize=25, dirty set
{0,25,50}, nothing cached, it renders 0 then 25 then 50, emitting progress
333, 666 and 1000, and the final event has progress 1000. -/
theorem C8_ascending_order :
    (∀ (o : Int → ChunkOutcome) (cache chunks : List Int),
      List.Sorted (· ≤ ·) (processedOf o cache (List.insertionSort (· ≤ ·) chunks))) ∧
    (doPreviewRender (fun _ => ChunkOutcome.success) [] [25, 50, 0]).1
      = [⟨0, none, 0⟩, ⟨0, some 0, 333⟩, ⟨25, some 25, 666⟩, ⟨50, some 50, 1000⟩] ∧
    processedOf (fun _ => ChunkOutcome.success) [] (List.insertionSort (· ≤ ·) [25, 50, 0])
      = [0, 25, 50] := by
  refine ⟨fun o cache chunks => ?_, rfl, rfl⟩
  exact List.Pairwise.sublist (processedOf_sublist o _ cache)
    (List.sorted_insertionSort (· ≤ ·) chunks)

/-- Helper: a rename with a missing source file does nothing. -/
theorem cacheRename_skip (st : PMCache) (i ix : Int) (hlive : st.live i = none) :
    cacheRename st i ix = (st, false) := by
  simp [cacheRename, hlive]

/-- Helper: a rename with a live source, an existing destination directory
and no name clash moves the file. -/
theorem cacheRename_success (st : PMCache) (i ix : Int) (c : Nat) (d : List (Int × Nat))
    (hlive : st.live i = some c) (hd : st.undo ix = some d) (hdi : d.lookup i = none) :
    cacheRename st i ix
      = ({ live := fun j => if j = i then none else st.live j,
           undo := fun j => if j = ix then some ((i, c) :: d) else st.undo j }, true) := by
  simp [cacheRename, hlive, hd, hdi]

/-- Helper: one unfolding step of the archive loop. -/
theorem archiveChunks_cons (ix i : Int) (rest : List Int) (st : PMCache) :
    archiveChunks ix st (i :: rest)
      = ((archiveChunks ix (cacheRename st i ix).1 rest).1,
         (cacheRename st i ix).2 || (archiveChunks ix (cacheRename st i ix).1 rest).2) :=
  rfl

/-- Helper: full characterization of the archive loop when the live cache
and the destination directory are disjoint: every live dirty chunk moves
into the directory, other state is untouched, foundPreviews is exactly
"some dirty chunk was live", and a run that found nothing is a no-op. -/
theorem archiveChunks_spec (ix : Int) :
    ∀ (C : List Int) (st : PMCache) (d : List (Int × Nat)),
    st.undo ix = some d →
    (∀ j, (st.live j).isSome → d.lookup j = none) →
    (∀ j, (archiveChunks ix st C).1.live j = if j ∈ C then none else st.live j) ∧
    (∃ d1, (archiveChunks ix st C).1.undo ix = some d1 ∧
      ∀ j, d1.lookup j =
        if j ∈ C ∧ (st.live j).isSome then st.live j else d.lookup j) ∧
    (∀ k, k ≠ ix → (archiveChunks ix st C).1.undo k = st.undo k) ∧
    ((archiveChunks ix st C).2 = C.any (fun i => (st.live i).isSome)) ∧
    ((archiveChunks ix st C).2 = false → (archiveChunks ix st C).1 = st) := by
  intro C
  induction C with
  | nil =>
    intro st d hd _
    exact ⟨by simp [archiveChunks], ⟨d, by simpa [archiveChunks] using hd,
      fun j => by simp⟩, fun k _ => rfl, by simp [archiveChunks], fun _ => rfl⟩
  | cons i rest ih =>
    intro st d hd hdis
    cases hlive : st.live i with
    | none =>
      obtain ⟨L, ⟨d1, hd1, Hd1⟩, U, F, Id⟩ := ih st d hd hdis
      have harch : archiveChunks ix st (i :: rest) = archiveChunks ix st rest := by
        rw [archiveChunks_cons, cacheRename_skip st i ix hlive]
        simp
      refine ⟨?_, ⟨d1, by rw [harch]; exact hd1, ?_⟩, ?_, ?_, ?_⟩
      · intro j
        rw [harch, L j]
        by_cases hj : j = i
        · subst hj
          simp [hlive]
        · simp [List.mem_cons, hj]
      · intro j
        rw [Hd1 j]
        by_cases hj : j = i
        · subst hj
          simp [hlive]
        · simp [List.mem_cons, hj]
      · intro k hk
        rw [harch]
        exact U k hk
      · rw [harch, F]
        simp [hlive]
      · rw [harch]
        exact Id
    | some c =>
      have hdi : d.lookup i = none := hdis i (by simp [hlive])
      have harch : archiveChunks ix st (i :: rest)
          = ((archiveChunks ix
                { live := fun j => if j = i then none else st.live j,
                  undo := fun j => if j = ix then some ((i, c) :: d) else st.undo j } rest).1,
              true) := by
        rw [archiveChunks_cons, cacheRename_success st i ix c d hlive hd hdi]
        simp
      obtain ⟨L, ⟨d1, hd1, Hd1⟩, U, F, Id⟩ := ih
        { live := fun j => if j = i then none else st.live j,
          undo := fun j => if j = ix then some ((i, c) :: d) else st.undo j }
        ((i, c) :: d) (by simp)
        (by
          intro j hj
          by_cases hji : j = i
          · rw [hji] at hj
            simp at hj
          · simp only [hji, if_false] at hj
            have hbe : (j == i) = false := beq_eq_false_iff_ne.mpr hji
            simpa [List.lookup, hbe] using hdis j hj)
      refine ⟨?_, ⟨d1, by rw [harch]; exact hd1, ?_⟩, ?_, ?_, ?_⟩
      · intro j
        rw [harch]
        simp only []
        rw [L j]
        by_cases hj : j = i
        · rw [hj]
          simp
        · simp [List.mem_cons, hj]
      · intro j
        rw [Hd1 j]
        by_cases hj : j = i
        · rw [hj]
          simp [hlive, List.lookup]
        · have hbe : (j == i) = false := beq_eq_false_iff_ne.mpr hj
          simp [List.mem_cons, hj, List.lookup, hbe]
      · intro k hk
        rw [harch]
        simp only []
        rw [U k hk]
        simp [hk]
      · rw [harch]
        simp [hlive]
      · rw [harch]
        intro h
        simp at h


/-- Helper: one unfolding step of the restore loop. -/
theorem restoreChunks_cons (ix : Int) (lu mf : Bool) (st : PMCache) (i : Int)
    (rest : List Int) :
    restoreChunks ix lu mf st (i :: rest)
      = (let st1 := if lu then st
           else { st with live := fun j => if j = i then none else st.live j };
         let r2 := if mf then
             match st1.undo ix with
             | none => (st1, false)
             | some d => fileCopy st1 d i
           else (st1, false);
         let r3 := restoreChunks ix lu mf r2.1 rest;
         (r3.1, if r2.2 then i :: r3.2 else r3.2)) :=
  rfl

/-- Helper: full characterization of the restore loop (no lastUndo, the
archive directory for the index exists): each dirty chunk's live file ends
as a copy of the archived file (absent when the archive has none), other
live files and the undo tree are untouched, and the reported list is
exactly the dirty chunks with an archived file, in queue order. -/
theorem restoreChunks_spec (ix : Int) :
    ∀ (C : List Int) (st : PMCache) (d1 : List (Int × Nat)), C.Nodup →
    st.undo ix = some d1 →
    (∀ j ∈ C, (restoreChunks ix false true st C).1.live j = d1.lookup j) ∧
    (∀ j, j ∉ C → (restoreChunks ix false true st C).1.live j = st.live j) ∧
    ((restoreChunks ix false true st C).1.undo = st.undo) ∧
    ((restoreChunks ix false true st C).2 = C.filter (fun j => (d1.lookup j).isSome)) := by
  intro C
  induction C with
  | nil =>
    intro st d1 _ _
    exact ⟨fun j hj => absurd hj (List.not_mem_nil j), fun j _ => rfl, rfl,
      by simp [restoreChunks]⟩
  | cons i rest ih =>
    intro st d1 hnd hd1
    have hir : i ∉ rest := (List.nodup_cons.mp hnd).1
    have hndr : rest.Nodup := (List.nodup_cons.mp hnd).2
    cases hdi : d1.lookup i with
    | none =>
      have hstep : restoreChunks ix false true st (i :: rest)
          = (let r3 := restoreChunks ix false true
               { st with live := fun j => if j = i then none else st.live j } rest;
             (r3.1, r3.2)) := by
        rw [restoreChunks_cons]
        simp only [if_neg (Bool.false_ne_true ∘ Eq.symm ∘ Eq.symm), Bool.false_eq_true,
          if_false, if_true, hd1]
        simp [fileCopy, hdi]
      obtain ⟨A, B, Un, F⟩ := ih
        { st with live := fun j => if j = i then none else st.live j } d1 hndr hd1
      refine ⟨?_, ?_, ?_, ?_⟩
      · intro j hj
        rcases List.mem_cons.mp hj with hji | hjr
        · rw [hstep]
          simp only []
          rw [hji, B i hir, hdi]
          simp
        · rw [hstep]
          simp only []
          exact A j hjr
      · intro j hj
        have hji : j ≠ i := fun h => hj (h ▸ List.mem_cons_self i rest)
        have hjr : j ∉ rest := fun h => hj (List.mem_cons_of_mem i h)
        rw [hstep]
        simp only []
        rw [B j hjr]
        simp [hji]
      · rw [hstep]
        simp only []
        exact Un
      · rw [hstep]
        simp only []
        rw [F, List.filter_cons]
        simp [hdi]
    | some c =>
      have hstep : restoreChunks ix false true st (i :: rest)
          = (let r3 := restoreChunks ix false true
               { st with live := fun j => if j = i then some c else st.live j } rest;
             (r3.1, i :: r3.2)) := by
        rw [restoreChunks_cons]
        simp only [Bool.false_eq_true, if_false, if_true, hd1]
        have hlive1 : ({ st with live := fun j => if j = i then none else st.live j
          : PMCache }).live i = none := by simp
        simp only [fileCopy, hdi, hlive1]
        simp
        have hfun : (fun j : Int => if j = i then some c else if j = i then none else st.live j)
            = (fun j : Int => if j = i then some c else st.live j) := by
          funext j
          by_cases hj : j = i <;> simp [hj]
        rw [hfun]
        exact ⟨rfl, rfl⟩
      obtain ⟨A, B, Un, F⟩ := ih
        { st with live := fun j => if j = i then some c else st.live j } d1 hndr hd1
      refine ⟨?_, ?_, ?_, ?_⟩
      · intro j hj
        rcases List.mem_cons.mp hj with hji | hjr
        · rw [hstep]
          simp only []
          rw [hji, B i hir, hdi]
          simp
        · rw [hstep]
          simp only []
          exact A j hjr
      · intro j hj
        have hji : j ≠ i := fun h => hj (h ▸ List.mem_cons_self i rest)
        have hjr : j ∉ rest := fun h => hj (List.mem_cons_of_mem i h)
        rw [hstep]
        simp only []
        rw [B j hjr]
        simp [hji]
      · rw [hstep]
        simp only []
        exact Un
      · rw [hstep]
        simp only []
        rw [F, List.filter_cons]
        simp [hdi]

/-- C6 counterexample: at the top of history with no live file for any
dirty chunk, the code creates undo/(stackIx-1), moves nothing, removes the
directory again - and does not emit cleanupOldPreviews, although the claim
asserts that archive pruning is then triggered. -/
theorem C6_archive_at_top_counterexample :
    (invalidatePreviews 1 1 [0]
      { live := fun _ => none, undo := fun _ => none }).cleanupEmitted = false ∧
    (invalidatePreviews 1 1 [0]
      { live := fun _ => none, undo := fun _ => none }).state.undo 0 = none := by
  exact ⟨rfl, rfl⟩

/-- C6 (amended): on a dirty-chunk notification with stackIx == stackMax
and no archive directory for stackIx-1 yet, the protocol moves each
existing live chunk file of the dirty set into undo/(stackIx-1)/ (same
content, gone from the live cache), deletes that directory again if no
file was moved, and triggers archive pruning exactly when at least one
file was moved. -/
theorem C6_archive_at_top (st : PMCache) (chunks : List Int) (stackMax : Int)
    (hdir : st.undo (stackMax - 1) = none) :
    ((invalidatePreviews stackMax stackMax chunks st).cleanupEmitted
        = chunks.any (fun i => (st.live i).isSome)) ∧
    (∀ i ∈ chunks, ∀ c, st.live i = some c →
      (invalidatePreviews stackMax stackMax chunks st).state.live i = none ∧
      ∃ d, (invalidatePreviews stackMax stackMax chunks st).state.undo (stackMax - 1)
          = some d ∧ d.lookup i = some c) ∧
    ((∀ i ∈ chunks, st.live i = none) →
      (invalidatePreviews stackMax stackMax chunks st).state.undo (stackMax - 1) = none) ∧
    ((invalidatePreviews stackMax stackMax chunks st).reload = none) := by
  have hcond : stackMax = stackMax ∧ (st.undo (stackMax - 1)).isNone := ⟨rfl, by simp [hdir]⟩
  have hmk : mkdirUndo st (stackMax - 1)
      = { st with undo := fun j => if j = stackMax - 1 then some [] else st.undo j } := by
    simp [mkdirUndo, hdir]
  obtain ⟨L, ⟨d1, hd1, Hd1⟩, U, F, Id⟩ := archiveChunks_spec (stackMax - 1) chunks
    { st with undo := fun j => if j = stackMax - 1 then some [] else st.undo j } []
    (by simp) (fun j _ => rfl)
  have hinv : invalidatePreviews stackMax stackMax chunks st
      = (if (archiveChunks (stackMax - 1)
            { st with undo := fun j => if j = stackMax - 1 then some [] else st.undo j }
            chunks).2 then
          ⟨(archiveChunks (stackMax - 1)
            { st with undo := fun j => if j = stackMax - 1 then some [] else st.undo j }
            chunks).1, true, none⟩
        else
          ⟨rmdirUndo (archiveChunks (stackMax - 1)
            { st with undo := fun j => if j = stackMax - 1 then some [] else st.undo j }
            chunks).1 (stackMax - 1), false, none⟩) := by
    simp only [invalidatePreviews, hdir, hmk]
    simp
  have hany : (archiveChunks (stackMax - 1)
      { st with undo := fun j => if j = stackMax - 1 then some [] else st.undo j }
      chunks).2 = chunks.any (fun i => (st.live i).isSome) := F
  rw [hinv]
  cases hf : (archiveChunks (stackMax - 1)
      { st with undo := fun j => if j = stackMax - 1 then some [] else st.undo j }
      chunks).2 with
  | false =>
    simp only [hf, Bool.false_eq_true, if_false]
    refine ⟨by rw [← hany, hf], ?_, ?_, trivial⟩
    · intro i hi c hc
      have : chunks.any (fun i => (st.live i).isSome) = true :=
        List.any_eq_true.mpr ⟨i, hi, by simp [hc]⟩
      rw [← hany, hf] at this
      exact absurd this (by simp)
    · intro _
      rw [Id hf]
      simp [rmdirUndo]
  | true =>
    simp only [hf, if_true]
    refine ⟨by rw [← hany, hf], ?_, ?_, trivial⟩
    · intro i hi c hc
      refine ⟨by rw [L i]; simp [hi], d1, hd1, ?_⟩
      rw [Hd1 i]
      simp [hi, hc]
    · intro h
      have : chunks.any (fun i => (st.live i).isSome) = false := by
        simp only [List.any_eq_false]
        intro i hi
        simp [h i hi]
      rw [← hany, hf] at this
      exact absurd this (by simp)

/-- C6 witness: the amended theorem applied to a state with one live
chunk file: that file is archived and the pruning signal is emitted. -/
theorem C6_archive_at_top_witness :
    ({ live := fun j => if j = 0 then some 5 else none,
       undo := fun _ => none } : PMCache).undo (1 - 1) = none ∧
    (invalidatePreviews 1 1 [0, 25]
      { live := fun j => if j = 0 then some 5 else none,
        undo := fun _ => none }).cleanupEmitted
      = ([0, 25] : List Int).any (fun i =>
          (({ live := fun j => if j = 0 then some 5 else none,
              undo := fun _ => none } : PMCache).live i).isSome) :=
  ⟨rfl, (C6_archive_at_top
    { live := fun j => if j = 0 then some 5 else none, undo := fun _ => none }
    [0, 25] 1 rfl).1⟩

/-- C9: archiving a duplicate-free chunk set into a fresh (existing,
empty) archive directory and then restoring from that directory is a round
trip: the restore loop reports exactly the chunks of the set that had a
live file, and every chunk of the set ends with the same live-cache
content it started with. -/
theorem C9_archive_restore_roundtrip (st : PMCache) (C : List Int) (ix : Int)
    (hnd : C.Nodup) (hdir : st.undo ix = some []) :
    ((restoreChunks ix false ((archiveChunks ix st C).1.undo ix).isSome
        (archiveChunks ix st C).1 C).2
      = C.filter (fun j => (st.live j).isSome)) ∧
    (∀ j ∈ C, (restoreChunks ix false ((archiveChunks ix st C).1.undo ix).isSome
        (archiveChunks ix st C).1 C).1.live j = st.live j) := by
  obtain ⟨L, ⟨d1, hd1, Hd1⟩, U, F, Id⟩ := archiveChunks_spec ix C st [] hdir (fun j _ => rfl)
  have hmf : ((archiveChunks ix st C).1.undo ix).isSome = true := by rw [hd1]; rfl
  rw [hmf]
  obtain ⟨A, B, Un, F2⟩ := restoreChunks_spec ix C (archiveChunks ix st C).1 d1 hnd hd1
  constructor
  · rw [F2]
    apply List.filter_congr
    intro j hj
    rw [Hd1 j]
    cases hsl : st.live j with
    | none => simp [hj, hsl]
    | some c => simp [hj, hsl]
  · intro j hj
    rw [A j hj, Hd1 j]
    cases hsl : st.live j with
    | none => simp [hj, hsl]
    | some c => simp [hj, hsl]

/-- C9 witness: the round trip applied to a state where chunk 0 has a live
file (content 7) and chunk 25 has none. -/
theorem C9_archive_restore_roundtrip_witness :
    ([0, 25] : List Int).Nodup ∧
    (restoreChunks 2 false
        ((archiveChunks 2
          { live := fun j => if j = 0 then some 7 else none,
            undo := fun j => if j = 2 then some [] else none } [0, 25]).1.undo 2).isSome
        (archiveChunks 2
          { live := fun j => if j = 0 then some 7 else none,
            undo := fun j => if j = 2 then some [] else none } [0, 25]).1 [0, 25]).2
      = ([0, 25] : List Int).filter (fun j =>
          (({ live := fun j => if j = 0 then some 7 else none,
              undo := fun j => if j = 2 then some [] else none } : PMCache).live j).isSome) :=
  ⟨by decide, (C9_archive_restore_roundtrip
    { live := fun j => if j = 0 then some 7 else none,
      undo := fun j => if j = 2 then some [] else none } [0, 25] 2 (by decide) rfl).1⟩

/-- C10: slotProcessDirtyChunks reads chunks.first() and chunks.last()
unconditionally, so its display update is well defined exactly when the
dirty-chunk list is non-empty; an empty dirty list makes the access
undefined (the none result). -/
theorem C10_slot_dirty_chunks_nonempty (stackIx stackMax : Int) (st : PMCache)
    (chunks : List Int) :
    (slotProcessDirtyChunks stackIx stackMax st chunks).isSome ↔ chunks ≠ [] := by
  cases chunks with
  | nil => simp [slotProcessDirtyChunks]
  | cons a l =>
    simp only [slotProcessDirtyChunks, List.head?_cons]
    have h : (a :: l).getLast? ≠ none := by
      simp [List.getLast?_isSome.mp, List.getLast?_eq_none_iff]
    cases hg : (a :: l).getLast? with
    | none => exact absurd hg h
    | some b => simp

/-- C10 witness: the theorem applied at a concrete dirty list. -/
theorem C10_slot_dirty_chunks_nonempty_witness :
    (slotProcessDirtyChunks 1 1 { live := fun _ => none, undo := fun _ => none }
      [3, 7]).isSome := by
  exact (C10_slot_dirty_chunks_nonempty 1 1 _ [3, 7]).mpr (by decide)

end Preview
